import Mathlib

/-!
Verification development for the coordinate-assignment and layout-recomposition
core of the OGDF fork: the longest-path compaction engine
(include/ogdf/orthogonal/LongestPathCompaction.h) and the component splitter /
drawing reassembler (src/ogdf/packing/ComponentSplitterLayout.cpp).

Conventions of the shallow embedding:
* machine doubles become exact rationals (ℚ); the finite sentinel
  std::numeric_limits<double>::max() is kept as the exact rational it denotes;
* angles are measured in units of π, so the source constants 0.5*pi, pi and
  1.5*pi become 1/2, 1 and 3/2;
* the transcendental functions atan2, cos, sin, sqrt used by the geometry are
  threaded through as explicit function parameters (a TrigModel), since their
  real values are irrational; every theorem below is either independent of the
  model or instantiates it only at axis-aligned inputs where atan2 has an
  exact rational value in units of π;
* the external collaborators (ConvexHull's calcNormal/leftOfLine/call, the
  packer, the secondary layout) are parameters of the embedded pipeline,
  mirrored from the spec's interface section.
-/

/-- A two-dimensional point with rational coordinates (embeds DPoint). -/
structure QPoint where
  x : ℚ
  y : ℚ
deriving DecidableEq, Repr

/-! ## Longest-path compaction (LongestPathCompaction)

The implementation file of LongestPathCompaction is not part of this
repository snapshot; only the class header is.  The constructive pass is
therefore modelled from the spec.  The class field layout below, however, is
embedded directly from the header. -/

/-- Field layout of class LongestPathCompaction, embedded from the header
(lines 103-108): the two option fields followed by the two scratch fields
m_pseudoSources (an SList of nodes) and m_component (a NodeArray of ints),
which are member state of the object. -/
structure LongestPathCompaction where
  m_tighten : Bool
  m_maxImprovementSteps : ℤ
  m_pseudoSources : List ℕ
  m_component : ℕ → ℤ

/-- An edge of the constraint DAG: a minimum-separation requirement
pos dst − pos src ≥ len with a non-negative length. -/
structure CGEdge where
  src : ℕ
  dst : ℕ
  len : ℕ
deriving DecidableEq, Repr

/-- The incoming constraint edges of node v. -/
def incomingOf (edges : List CGEdge) (v : ℕ) : List CGEdge :=
  edges.filter (fun e => e.dst == v)

/-- The relaxation values contributed by the incoming edges of v:
position of the source plus the edge length. -/
def incomingVals (edges : List CGEdge) (pos : ℕ → ℤ) (v : ℕ) : List ℤ :=
  (incomingOf edges v).map (fun e => pos e.src + e.len)

/-- Modelled from the spec: the coordinate assigned to a node when it is
processed — the maximum over its incoming edges of (predecessor coordinate +
edge length), or 0 if it has none. -/
def inMax (edges : List CGEdge) (pos : ℕ → ℤ) (v : ℕ) : ℤ :=
  (incomingVals edges pos v).foldl max 0

/-- Modelled from the spec: the topological relaxation pass of
constructiveHeuristics (the implementation file is missing from the
snapshot) — process the nodes in the given order, assigning each the
maximum over incoming edges of predecessor coordinate + length. -/
def constructivePass (edges : List CGEdge) : List ℕ → (ℕ → ℤ) → (ℕ → ℤ)
  | [], pos => pos
  | v :: rest, pos =>
      constructivePass edges rest (fun w => if w = v then inMax edges pos v else pos w)

/-- Modelled from the spec: constructiveHeuristics, starting all coordinates
at 0 and running the topological relaxation pass. -/
def constructiveHeuristics (edges : List CGEdge) (order : List ℕ) : ℕ → ℤ :=
  constructivePass edges order (fun _ => 0)

/-- The processing order is topological: whenever a suffix of the order
starts with the target of an edge, the source of that edge does not occur in
that suffix (it has already been processed). -/
def topoOK (edges : List CGEdge) (order : List ℕ) : Prop :=
  ∀ e ∈ edges, ∀ s ∈ order.tails, s.head? = some e.dst → e.src ∉ s

/-- Every endpoint of every constraint edge occurs in the processing order. -/
def coversEdges (edges : List CGEdge) (order : List ℕ) : Prop :=
  ∀ e ∈ edges, e.src ∈ order ∧ e.dst ∈ order

/-- A feasible assignment satisfies every constraint edge. -/
def feasibleAssign (edges : List CGEdge) (q : ℕ → ℤ) : Prop :=
  ∀ e ∈ edges, q e.src + e.len ≤ q e.dst

instance (edges : List CGEdge) (order : List ℕ) : Decidable (coversEdges edges order) :=
  decidable_of_iff (∀ e ∈ edges, e.src ∈ order ∧ e.dst ∈ order) Iff.rfl

instance (edges : List CGEdge) (order : List ℕ) : Decidable (topoOK edges order) :=
  decidable_of_iff (∀ e ∈ edges, ∀ s ∈ order.tails, s.head? = some e.dst → e.src ∉ s) Iff.rfl

/-! ### Basic foldl-max lemmas -/

lemma le_foldl_max_init (l : List ℤ) (a : ℤ) : a ≤ l.foldl max a := by
  induction l generalizing a with
  | nil => exact le_refl a
  | cons x t ih => exact le_trans (le_max_left a x) (ih (max a x))

lemma le_foldl_max_mem {l : List ℤ} {x : ℤ} (a : ℤ) (hx : x ∈ l) : x ≤ l.foldl max a := by
  induction l generalizing a with
  | nil => cases hx
  | cons y t ih =>
      rcases List.mem_cons.mp hx with h | h
      · subst h
        exact le_trans (le_max_right a x) (le_foldl_max_init t (max a x))
      · exact ih (max a y) h

lemma foldl_max_le {l : List ℤ} {a c : ℤ} (ha : a ≤ c) (h : ∀ x ∈ l, x ≤ c) :
    l.foldl max a ≤ c := by
  induction l generalizing a with
  | nil => exact ha
  | cons x t ih =>
      refine ih (max_le ha (h x (List.mem_cons_self x t))) ?_
      intro y hy
      exact h y (List.mem_cons_of_mem x hy)

lemma foldl_max_mem_or_init (l : List ℤ) (a : ℤ) : l.foldl max a ∈ l ∨ l.foldl max a = a := by
  induction l generalizing a with
  | nil => exact Or.inr rfl
  | cons x t ih =>
      rcases ih (max a x) with h | h
      · exact Or.inl (List.mem_cons_of_mem x h)
      · rcases max_choice a x with hm | hm
        · exact Or.inr (h.trans hm)
        · exact Or.inl (List.mem_cons.mpr (Or.inl (h.trans hm)))

/-! ### Properties of the constructive pass -/

lemma pass_not_mem (edges : List CGEdge) (l : List ℕ) (pos : ℕ → ℤ) (w : ℕ)
    (hw : w ∉ l) : constructivePass edges l pos w = pos w := by
  induction l generalizing pos with
  | nil => rfl
  | cons v rest ih =>
      have hwv : w ≠ v := fun h => hw (h ▸ List.mem_cons_self v rest)
      have hwr : w ∉ rest := fun h => hw (List.mem_cons_of_mem v h)
      simp only [constructivePass]
      rw [ih _ hwr]
      simp [hwv]

lemma inMax_nonneg (edges : List CGEdge) (pos : ℕ → ℤ) (v : ℕ) : 0 ≤ inMax edges pos v :=
  le_foldl_max_init _ 0

lemma pass_nonneg (edges : List CGEdge) (l : List ℕ) (pos : ℕ → ℤ)
    (h : ∀ w, 0 ≤ pos w) : ∀ w, 0 ≤ constructivePass edges l pos w := by
  induction l generalizing pos with
  | nil => exact h
  | cons v rest ih =>
      intro w
      simp only [constructivePass]
      refine ih _ ?_ w
      intro u
      by_cases hu : u = v
      · simp [hu, inMax_nonneg]
      · simp [hu, h u]

lemma inMax_congr (edges : List CGEdge) (f g : ℕ → ℤ) (v : ℕ)
    (h : ∀ e ∈ edges, e.dst = v → f e.src = g e.src) :
    inMax edges f v = inMax edges g v := by
  unfold inMax incomingVals
  congr 1
  refine List.map_congr_left ?_
  intro e he
  rcases List.mem_filter.mp he with ⟨hmem, hdst⟩
  rw [h e hmem (by simpa using hdst)]

lemma topoOK_of_cons {edges : List CGEdge} {v : ℕ} {rest : List ℕ}
    (h : topoOK edges (v :: rest)) : topoOK edges rest := by
  intro e he s hs hhead
  refine h e he s ?_ hhead
  rw [List.tails_cons]
  exact List.mem_cons_of_mem _ hs

lemma pass_fixed (edges : List CGEdge) :
    ∀ (l : List ℕ) (pos : ℕ → ℤ), l.Nodup → topoOK edges l →
      ∀ v ∈ l, constructivePass edges l pos v = inMax edges (constructivePass edges l pos) v := by
  intro l
  induction l with
  | nil => intro pos _ _ v hv; cases hv
  | cons v rest ih =>
      intro pos hnd htopo u hu
      have hvrest : v ∉ rest := (List.nodup_cons.mp hnd).1
      have hndr : rest.Nodup := (List.nodup_cons.mp hnd).2
      have htopor : topoOK edges rest := topoOK_of_cons htopo
      rcases List.mem_cons.mp hu with rfl | hur
      · -- the head node: its value is fixed when it is processed and
        -- none of its predecessors changes afterwards
        have hself : (u :: rest) ∈ (u :: rest).tails := by
          rw [List.tails_cons]; exact List.mem_cons_self _ _
        have hsrc : ∀ e ∈ edges, e.dst = u → e.src ∉ u :: rest := by
          intro e he hd
          exact htopo e he (u :: rest) hself (by rw [hd]; rfl)
        simp only [constructivePass]
        set pos1 : ℕ → ℤ := fun w => if w = u then inMax edges pos u else pos w with hpos1
        have hval : constructivePass edges rest pos1 u = inMax edges pos u := by
          rw [pass_not_mem edges rest pos1 u hvrest]
          simp [hpos1]
        rw [hval]
        refine inMax_congr edges pos (constructivePass edges rest pos1) u ?_
        intro e he hd
        have hns : e.src ∉ u :: rest := hsrc e he hd
        have hnsu : e.src ≠ u := fun h => hns (h ▸ List.mem_cons_self u rest)
        have hnsr : e.src ∉ rest := fun h => hns (List.mem_cons_of_mem u h)
        rw [pass_not_mem edges rest pos1 e.src hnsr]
        simp [hpos1, hnsu]
      · simpa only [constructivePass] using
          ih (fun w => if w = v then inMax edges pos v else pos w) hndr htopor u hur

lemma pass_le_feasible (edges : List CGEdge) (q : ℕ → ℤ)
    (hqf : feasibleAssign edges q) :
    ∀ (l : List ℕ) (pos : ℕ → ℤ), (∀ w, pos w ≤ q w) → (∀ w, 0 ≤ q w) →
      ∀ w, constructivePass edges l pos w ≤ q w := by
  intro l
  induction l with
  | nil => intro pos hle _ w; exact hle w
  | cons v rest ih =>
      intro pos hle hq0 w
      simp only [constructivePass]
      refine ih _ ?_ hq0 w
      intro u
      by_cases hu : u = v
      · subst hu
        simp only [if_pos rfl]
        refine foldl_max_le (hq0 u) ?_
        intro x hx
        rcases List.mem_map.mp hx with ⟨e, he, rfl⟩
        rcases List.mem_filter.mp he with ⟨hmem, hdst⟩
        have hd : e.dst = u := by simpa using hdst
        calc pos e.src + (e.len : ℤ) ≤ q e.src + e.len := by
              exact add_le_add_right (hle e.src) _
          _ ≤ q e.dst := hqf e hmem
          _ = q u := by rw [hd]
      · simp [hu, hle u]

/-- C1: after constructiveHeuristics on a topologically ordered constraint DAG,
the positions are feasible (pos dst − pos src ≥ len for every edge), every
processed node's position equals the maximum over its incoming edges of
(predecessor position + length) — in particular 0 when it has no incoming
edge, and an attained incoming value otherwise — and the assignment is
pointwise minimal among non-negative feasible assignments. -/
theorem lpc_c1_constructive (edges : List CGEdge) (order : List ℕ)
    (hnd : order.Nodup) (hcov : coversEdges edges order) (htopo : topoOK edges order) :
    feasibleAssign edges (constructiveHeuristics edges order)
    ∧ (∀ v ∈ order, constructiveHeuristics edges order v
        = inMax edges (constructiveHeuristics edges order) v)
    ∧ (∀ v ∈ order, incomingOf edges v = [] → constructiveHeuristics edges order v = 0)
    ∧ (∀ v ∈ order, incomingOf edges v ≠ [] →
        constructiveHeuristics edges order v
          ∈ incomingVals edges (constructiveHeuristics edges order) v)
    ∧ (∀ q : ℕ → ℤ, (∀ w, 0 ≤ q w) → feasibleAssign edges q →
        ∀ w, constructiveHeuristics edges order w ≤ q w) := by
  set pos := constructiveHeuristics edges order with hpos
  have hfix : ∀ v ∈ order, pos v = inMax edges pos v :=
    pass_fixed edges order (fun _ => 0) hnd htopo
  have hnn : ∀ w, 0 ≤ pos w :=
    pass_nonneg edges order (fun _ => 0) (fun _ => le_refl 0)
  refine ⟨?_, hfix, ?_, ?_, ?_⟩
  · -- feasibility
    intro e he
    have hdst : e.dst ∈ order := (hcov e he).2
    have hmem : pos e.src + (e.len : ℤ) ∈ incomingVals edges pos e.dst := by
      refine List.mem_map.mpr ⟨e, ?_, rfl⟩
      exact List.mem_filter.mpr ⟨he, by simp⟩
    rw [hfix e.dst hdst]
    exact le_foldl_max_mem 0 hmem
  · -- no incoming edge: position 0
    intro v hv hempty
    rw [hfix v hv]
    unfold inMax incomingVals
    rw [hempty]
    rfl
  · -- some incoming edge: the maximum is attained
    intro v hv hne
    have hvals : incomingVals edges pos v ≠ [] := by
      unfold incomingVals
      simpa using hne
    rw [hfix v hv]
    unfold inMax
    rcases foldl_max_mem_or_init (incomingVals edges pos v) 0 with h | h
    · exact h
    · rcases List.exists_mem_of_ne_nil _ hvals with ⟨x, hx⟩
      have hx0 : 0 ≤ x := by
        rcases List.mem_map.mp hx with ⟨e, _, rfl⟩
        have : (0 : ℤ) ≤ (e.len : ℤ) := Int.ofNat_nonneg e.len
        exact add_nonneg (hnn e.src) this
      have hxle : x ≤ (incomingVals edges pos v).foldl max 0 := le_foldl_max_mem 0 hx
      have : (incomingVals edges pos v).foldl max 0 = x :=
        le_antisymm (by rw [h]; exact hx0) hxle
      rw [this]
      exact hx
  · -- minimality among non-negative feasible assignments
    intro q hq0 hqf w
    exact pass_le_feasible edges q hqf order (fun _ => 0) (fun u => hq0 u) hq0 w

/-- The spec scenario constraint path: four nodes, edge lengths 5, 3, 2. -/
def edges4 : List CGEdge := [⟨0, 1, 5⟩, ⟨1, 2, 3⟩, ⟨2, 3, 2⟩]

/-- Topological processing order for the path scenario. -/
def order4 : List ℕ := [0, 1, 2, 3]

/-- Witness for C1 at the spec scenario: the constructive pass on the path
with lengths 5, 3, 2 gives positions 0, 5, 8, 10 and a feasible assignment. -/
theorem lpc_c1_witness :
    (order4.Nodup ∧ coversEdges edges4 order4 ∧ topoOK edges4 order4)
    ∧ feasibleAssign edges4 (constructiveHeuristics edges4 order4)
    ∧ (constructiveHeuristics edges4 order4 0 = 0
        ∧ constructiveHeuristics edges4 order4 1 = 5
        ∧ constructiveHeuristics edges4 order4 2 = 8
        ∧ constructiveHeuristics edges4 order4 3 = 10) :=
  ⟨⟨by decide, by decide, by decide⟩,
   (lpc_c1_constructive edges4 order4 (by decide) (by decide) (by decide)).1,
   by decide⟩

/-! ## Component splitter / drawing reassembler (ComponentSplitterLayout.cpp)

Angles are measured in units of π.  The transcendental functions are a
parameter bundle; atan2q below pins down the raw arctangent exactly on the
axis-aligned inputs, the only inputs any theorem evaluates it on. -/

/-- Bundle of the transcendental functions used by the geometric pipeline:
the raw two-argument arctangent (in units of π), cosine, sine and square
root models. -/
structure TrigModel where
  at2 : ℚ → ℚ → ℚ
  cosF : ℚ → ℚ
  sinF : ℚ → ℚ
  sqrtF : ℚ → ℚ

/-- Embedding of the helper atan2ex (ComponentSplitterLayout.cpp lines
160-180), parameterized over the raw arctangent model at2: first the zero-x
branch overrides the raw angle, then the zero-y branch overrides both. -/
def atan2ex (at2 : ℚ → ℚ → ℚ) (y x : ℚ) : ℚ :=
  let angle := at2 y x
  let angle2 := if x = 0 then (if 0 ≤ y then 1/2 else 3/2) else angle
  let angle3 := if y = 0 then (if 0 ≤ x then 0 else 1) else angle2
  angle3

/-- Modelled from the spec: the exact values of the C library atan2 on
axis-aligned inputs, in units of π (π/2 becomes 1/2, −π/2 becomes −1/2, π
becomes 1).  Off the axes the true value is irrational; this model returns 0
there, and no theorem below evaluates it off the axes. -/
def atan2q (y x : ℚ) : ℚ :=
  if x = 0 then (if 0 < y then 1/2 else if y < 0 then -(1/2) else 0)
  else if y = 0 then (if 0 < x then 0 else 1)
  else 0

/-- The rotation-angle derivation of reassembleDrawings (line 303):
angle = −atan2(normal.y, normal.x) + 1.5π, using the raw arctangent. -/
def rotationFromNormal (at2 : ℚ → ℚ → ℚ) (n : QPoint) : ℚ :=
  -(at2 n.y n.x) + 3/2

/-- The polar rotation used by the hull-rotation loop (lines 316-320) and as
the first stage of the rotatePoint lambda: ang = atan2(p.y, p.x) + angle with
the raw arctangent, then (cos ang · len, sin ang · len). -/
def rotateByAngle (tm : TrigModel) (angle : ℚ) (p : QPoint) : QPoint :=
  let ang := tm.at2 p.y p.x + angle
  let len := tm.sqrtF (p.x * p.x + p.y * p.y)
  ⟨tm.cosF ang * len, tm.sinF ang * len⟩

/-- The rotatePoint lambda of reassembleDrawings (lines 347-362), transcribed
inline: polar rotation by the component's angle with the raw arctangent, then
add the packer offset, then subtract the pre-rotation offset. -/
def rotatePoint (tm : TrigModel) (rot : ℚ) (off : ℤ × ℤ) (oldOff : QPoint)
    (p : QPoint) : QPoint :=
  let ang := tm.at2 p.y p.x + rot
  let len := tm.sqrtF (p.x * p.x + p.y * p.y)
  let x1 := tm.cosF ang * len + (off.1 : ℚ)
  let y1 := tm.sinF ang * len + (off.2 : ℚ)
  ⟨x1 - oldOff.x, y1 - oldOff.y⟩

/-- C2 counterexample: at the axis-aligned normal (0, −1) — zero x, negative
y — the claim demands the definite angle 3π/2, but the rotation-angle
derivation of the pipeline uses the raw arctangent value −π/2, so the derived
rotation is 2π instead of the 0 that the special-cased angle would give. -/
theorem csl_c2_counterexample :
    atan2q (-1) 0 = -(1/2)
    ∧ atan2ex atan2q (-1) 0 = 3/2
    ∧ rotationFromNormal atan2q ⟨0, -1⟩ = 2
    ∧ rotationFromNormal atan2q ⟨0, -1⟩ ≠ -(atan2ex atan2q (-1) 0) + 3/2 := by
  refine ⟨?_, ?_, ?_, ?_⟩ <;> norm_num [atan2q, atan2ex, rotationFromNormal]

/-- C2 amended: the standalone helper atan2ex does special-case axis-aligned
inputs (zero y wins over zero x, giving 0 or π; zero x gives π/2 or 3π/2),
but the three angle computations of the reassembly pipeline — the
rotation-angle derivation, the hull-rotation loop and the rotatePoint
lambda — apply the raw arctangent, not atan2ex. -/
theorem csl_c2_amended_angles (at2 : ℚ → ℚ → ℚ) (tm : TrigModel) (y x rot : ℚ)
    (p n oldOff : QPoint) (off : ℤ × ℤ) :
    atan2ex at2 y x
      = (if y = 0 then (if 0 ≤ x then 0 else 1)
         else if x = 0 then (if 0 ≤ y then 1/2 else 3/2) else at2 y x)
    ∧ rotationFromNormal at2 n = -(at2 n.y n.x) + 3/2
    ∧ rotateByAngle tm rot p
        = ⟨tm.cosF (tm.at2 p.y p.x + rot) * tm.sqrtF (p.x * p.x + p.y * p.y),
           tm.sinF (tm.at2 p.y p.x + rot) * tm.sqrtF (p.x * p.x + p.y * p.y)⟩
    ∧ rotatePoint tm rot off oldOff p
        = ⟨(rotateByAngle tm rot p).x + off.1 - oldOff.x,
           (rotateByAngle tm rot p).y + off.2 - oldOff.y⟩ := by
  refine ⟨?_, rfl, rfl, rfl⟩
  unfold atan2ex
  by_cases hy : y = 0 <;> by_cases hx : x = 0 <;> simp [hx, hy]

/-- C3 counterexample: the scratch state is not call-local — the object state
of LongestPathCompaction is not determined by its two configuration options,
refuted by two objects with equal options but different m_pseudoSources
lists. -/
theorem lpc_c3_counterexample :
    ¬ (∀ s t : LongestPathCompaction,
        s.m_tighten = t.m_tighten → s.m_maxImprovementSteps = t.m_maxImprovementSteps →
          s = t) := by
  intro h
  have heq := h ⟨true, 0, [], fun _ => 0⟩ ⟨true, 0, [5], fun _ => 0⟩ rfl rfl
  have h5 : ([] : List ℕ) = [5] := congrArg LongestPathCompaction.m_pseudoSources heq
  simp at h5

/-- C3 amended: the pseudo-source list and the node-to-pseudo-component map
are mutable member fields of the LongestPathCompaction object (header lines
107-108), so the scratch state persists on the shared object rather than
being local to each invocation: objects with identical configuration can
differ in their scratch fields. -/
theorem lpc_c3_scratch_fields :
    ∃ s t : LongestPathCompaction,
      s.m_tighten = t.m_tighten
      ∧ s.m_maxImprovementSteps = t.m_maxImprovementSteps
      ∧ s.m_pseudoSources ≠ t.m_pseudoSources :=
  ⟨⟨true, 0, [], fun _ => 0⟩, ⟨true, 0, [5], fun _ => 0⟩, rfl, rfl, by simp⟩

/-! ### Rotating calipers, orientation normalization, boxes -/

/-- Exact rational value of std::numeric_limits<double>::max(), the initial
best_area sentinel of the calipers search (line 253). -/
def dblMax : ℚ := (2 ^ 53 - 1) * 2 ^ 971

/-- State of the rotating-calipers search: the stored best height, width,
area and normal (lines 253-256). -/
structure Calipers where
  height : ℚ
  width : ℚ
  area : ℚ
  normal : QPoint
deriving DecidableEq, Repr

/-- Initial best values of the calipers search: zero width and height, the
DBL_MAX area sentinel, and a default-constructed normal (0,0). -/
def caliperInit : Calipers := ⟨0, 0, dblMax, ⟨0, 0⟩⟩

/-- Modelled from the spec: the Euclidean length of the difference p − q,
exact in ℚ whenever the difference is axis-aligned — the only case any
theorem below instantiates, since a general hypotenuse is irrational.  Off
the axes the model returns 0, making the dependent normal degenerate and
unused. -/
def edgeLen (p q : QPoint) : ℚ :=
  if p.x = q.x then |p.y - q.y| else if p.y = q.y then |p.x - q.x| else 0

/-- Modelled from the spec: ConvexHull::calcNormal (normal(p,q) → 2D vector;
the hull implementation is external to this repository snapshot), taken as
the unit normal of the edge from q to p, oriented so that for the
counterclockwise hulls used below the remaining hull points lie at positive
signed distance; the normalization is exact because every instantiated edge
is axis-aligned. -/
def chNormal (p q : QPoint) : QPoint :=
  ⟨(q.y - p.y) / edgeLen p q, (p.x - q.x) / edgeLen p q⟩

/-- Modelled from the spec: ConvexHull::leftOfLine (signedDistance(normal,
point, referencePoint) → scalar), the dot product of the normal with the
offset of the point from the reference point — the exact perpendicular
signed distance, since the supplied normal has unit length. -/
def chLeftOf (n z r : QPoint) : ℚ := n.x * (z.x - r.x) + n.y * (z.y - r.y)

/-- The candidate produced by one hull edge (iter = pIter, cyclicSucc =
pSucc), transcribed from lines 262-293: height is the largest positive
signed distance of a hull point from the edge line (starting at 0), the
width is left − right accumulated with the source's else-if update, both are
then clamped to at least 1 (Math::updateMax with 1.0), and the area is their
product; the candidate normal is calcNormal(succ, iter). -/
def caliperCandidate (CN : QPoint → QPoint → QPoint) (LOL : QPoint → QPoint → QPoint → ℚ)
    (hull : List QPoint) (pIter pSucc : QPoint) : Calipers :=
  let norm1 := CN pSucc pIter
  let dist := hull.foldl
    (fun acc z => if acc < LOL norm1 z pSucc then LOL norm1 z pSucc else acc) 0
  let norm2 := CN ⟨0, 0⟩ norm1
  let lr := hull.foldl
    (fun acc z =>
      let d := LOL norm2 z pSucc
      if acc.1 < d then (d, acc.2) else if d < acc.2 then (acc.1, d) else acc)
    ((0 : ℚ), (0 : ℚ))
  let width := lr.1 - lr.2
  let dist2 := max dist 1
  let width2 := max width 1
  ⟨dist2, width2, dist2 * width2, CN pSucc pIter⟩

/-- One accept step of the calipers loop (lines 287-294): a candidate whose
area is less than or equal to the current best area replaces the stored
height, width, area and normal. -/
def acceptStep (best cand : Calipers) : Calipers :=
  if cand.area ≤ best.area then cand else best

/-- The hull edges in iteration order: each point paired with its cyclic
successor (DPolygon::cyclicSucc). -/
def hullEdgePairs (hull : List QPoint) : List (QPoint × QPoint) :=
  hull.zip (hull.rotate 1)

/-- The candidate list of the calipers search, one candidate per hull edge,
in hull iteration order. -/
def candidatesOf (CN : QPoint → QPoint → QPoint) (LOL : QPoint → QPoint → QPoint → ℚ)
    (hull : List QPoint) : List Calipers :=
  (hullEdgePairs hull).map (fun pr => caliperCandidate CN LOL hull pr.1 pr.2)

/-- The rotating-calipers search (lines 253-295): fold the accept step over
the per-edge candidates starting from the DBL_MAX sentinel state. -/
def caliperSearch (CN : QPoint → QPoint → QPoint) (LOL : QPoint → QPoint → QPoint → ℚ)
    (hull : List QPoint) : Calipers :=
  (candidatesOf CN LOL hull).foldl acceptStep caliperInit

/-- Orientation normalization (lines 304-309): when the winning width is
smaller than the winning height, add a quarter turn (π/2, i.e. 1/2 in units
of π) to the angle and swap the stored width and height.  The result triple
is (angle, width, height). -/
def normalizeOrientation (angle w h : ℚ) : ℚ × ℚ × ℚ :=
  if w < h then (angle + 1/2, h, w) else (angle, w, h)

/-- The C++ double-to-int cast (lines 337-338): truncation toward zero, on
rationals. -/
def icast (q : ℚ) : ℤ := if q < 0 then -(⌊-q⌋) else ⌊q⌋

/-- Result of the per-component box pipeline: rotation angle, normalized
width and height, winning normal, and the integer box handed to the packer. -/
structure StageResult where
  angle : ℚ
  width : ℚ
  height : ℚ
  normal : QPoint
  box : ℤ × ℤ
deriving DecidableEq, Repr

/-- The per-component box pipeline after the hull is known (lines 253-339):
calipers search, degenerate-hull default (≤ 1 hull point gives unit
dimensions and the fixed normal (1,1)), rotation angle derived from the
winning normal with the raw arctangent, quarter-turn normalization, and the
integer box (truncated width + border, truncated height + border). -/
def boxStage (at2 : ℚ → ℚ → ℚ) (CN : QPoint → QPoint → QPoint)
    (LOL : QPoint → QPoint → QPoint → ℚ) (border : ℤ) (hull : List QPoint) : StageResult :=
  let best := caliperSearch CN LOL hull
  let bh := if hull.length ≤ 1 then 1 else best.height
  let bw := if hull.length ≤ 1 then 1 else best.width
  let bn := if hull.length ≤ 1 then (⟨1, 1⟩ : QPoint) else best.normal
  let r := normalizeOrientation (rotationFromNormal at2 bn) bw bh
  ⟨r.1, r.2.1, r.2.2, bn, (icast r.2.1 + border, icast r.2.2 + border)⟩

/-- Component geometry: the node positions and, per edge, the bend points. -/
structure CompGeom where
  nodes : List QPoint
  bends : List (List QPoint)
deriving DecidableEq, Repr

/-- Field layout of class ComponentSplitterLayout: the secondary layout
(null when absent), the packer (external module, modelled as its call
function), the target ratio and the border. -/
structure ComponentSplitterLayout where
  m_secondaryLayout : Option (CompGeom → CompGeom)
  m_packer : List (ℤ × ℤ) → ℚ → List (ℤ × ℤ)
  m_targetRatio : ℚ
  m_border : ℤ

/-- The constructor (lines 57-61): a fresh packer, target ratio 1, border 30;
the secondary layout pointer starts null. -/
def cslMk (packer : List (ℤ × ℤ) → ℚ → List (ℤ × ℤ)) : ComponentSplitterLayout :=
  ⟨none, packer, 1, 30⟩

/-- A trivial conforming packer model used to instantiate witnesses: every
box is placed at the origin. -/
def packZero : List (ℤ × ℤ) → ℚ → List (ℤ × ℤ) :=
  fun boxes _ => boxes.map (fun _ => (0, 0))

/-! ### Monotonicity of the integer cast -/

lemma icast_mono {a b : ℚ} (hab : a ≤ b) : icast a ≤ icast b := by
  unfold icast
  by_cases ha : a < 0
  · by_cases hb : b < 0
    · rw [if_pos ha, if_pos hb]
      have h1 : ⌊-b⌋ ≤ ⌊-a⌋ := Int.floor_le_floor (by linarith)
      omega
    · rw [if_pos ha, if_neg hb]
      have h1 : (0 : ℤ) ≤ ⌊-a⌋ := Int.floor_nonneg.mpr (by linarith)
      have h2 : (0 : ℤ) ≤ ⌊b⌋ := Int.floor_nonneg.mpr (by linarith)
      omega
  · by_cases hb : b < 0
    · exact absurd (lt_of_le_of_lt hab hb) ha
    · rw [if_neg ha, if_neg hb]
      exact Int.floor_le_floor hab

lemma icast_one_le {q : ℚ} (h : 1 ≤ q) : 1 ≤ icast q := by
  unfold icast
  rw [if_neg (by linarith : ¬ q < 0)]
  exact Int.le_floor.mpr (by exact_mod_cast h)

lemma acceptStep_eq_of_le {b c : Calipers} (h : c.area ≤ b.area) :
    acceptStep b c = c := by
  unfold acceptStep
  rw [if_pos h]

lemma acceptStep_eq_of_not_le {b c : Calipers} (h : ¬ c.area ≤ b.area) :
    acceptStep b c = b := by
  unfold acceptStep
  rw [if_neg h]

lemma acceptStep_eq_of_area_eq {b c : Calipers} (h : c.area = b.area) :
    acceptStep b c = c :=
  acceptStep_eq_of_le (le_of_eq h)

/-- C4: the best-candidate comparison of the calipers search is non-strict:
the search is the fold of the accept step over the per-edge candidates, and
appending a candidate whose area equals the area of the current best makes
that candidate the result — its height, width, area and normal replace the
stored ones, so among equal-area candidates the last in hull order wins. -/
theorem csl_c4_tiebreak :
    (∀ (CN : QPoint → QPoint → QPoint) (LOL : QPoint → QPoint → QPoint → ℚ)
        (hull : List QPoint),
      caliperSearch CN LOL hull = (candidatesOf CN LOL hull).foldl acceptStep caliperInit)
    ∧ ∀ (init cand : Calipers) (l : List Calipers),
        cand.area = (l.foldl acceptStep init).area →
          (l ++ [cand]).foldl acceptStep init = cand := by
  refine ⟨fun CN LOL hull => rfl, ?_⟩
  intro init cand l h
  rw [List.foldl_append]
  simp only [List.foldl_cons, List.foldl_nil]
  exact acceptStep_eq_of_area_eq h

/-- A concrete candidate with area 2 (width 2, height 1). -/
def cand1 : Calipers := ⟨1, 2, 2, ⟨1, 0⟩⟩

/-- A second candidate with the same area 2 but different fields. -/
def cand2 : Calipers := ⟨2, 1, 2, ⟨0, 1⟩⟩

/-- Witness for C4: cand2 has the same area as the best after cand1, and the
fold over both ends at cand2, replacing every stored field. -/
theorem csl_c4_witness :
    cand2.area = ([cand1].foldl acceptStep caliperInit).area
    ∧ ([cand1, cand2].foldl acceptStep caliperInit) = cand2
    ∧ cand1 ≠ cand2 := by
  have harea : cand2.area = ([cand1].foldl acceptStep caliperInit).area := by
    norm_num [cand1, cand2, acceptStep, caliperInit, dblMax]
  refine ⟨harea, ?_, by norm_num [cand1, cand2]⟩
  have := csl_c4_tiebreak.2 caliperInit cand2 [cand1] harea
  simpa using this

/-- C5: after orientation normalization the recorded height never exceeds the
recorded width; whenever the incoming width is smaller than the incoming
height, a quarter turn (1/2 in units of π) is added to the angle and the two
dimensions are swapped; consequently the box built from the normalized
dimensions has its first component at least its second. -/
theorem csl_c5_normalize (angle w h : ℚ) (border : ℤ) :
    (normalizeOrientation angle w h).2.2 ≤ (normalizeOrientation angle w h).2.1
    ∧ (w < h → normalizeOrientation angle w h = (angle + 1/2, h, w))
    ∧ icast (normalizeOrientation angle w h).2.2 + border
        ≤ icast (normalizeOrientation angle w h).2.1 + border := by
  unfold normalizeOrientation
  by_cases hw : w < h
  · rw [if_pos hw]
    exact ⟨le_of_lt hw, fun _ => rfl,
      add_le_add_right (icast_mono (le_of_lt hw)) border⟩
  · rw [if_neg hw]
    exact ⟨not_lt.mp hw, fun hcon => absurd hcon hw,
      add_le_add_right (icast_mono (not_lt.mp hw)) border⟩

/-- Witness for C5 at width 1, height 2: the quarter turn is added, the
dimensions are swapped, and the normalized height is at most the width. -/
theorem csl_c5_witness :
    ((1 : ℚ) < 2)
    ∧ normalizeOrientation 0 1 2 = (0 + 1/2, 2, 1)
    ∧ (normalizeOrientation 0 1 2).2.2 ≤ (normalizeOrientation 0 1 2).2.1 :=
  ⟨by norm_num, (csl_c5_normalize 0 1 2 0).2.1 (by norm_num), (csl_c5_normalize 0 1 2 0).1⟩

/-- C8: a hull with at most one point gets the unit box: width and height 1,
the fixed default normal (1,1), and with the constructor's default border 30
the packing box is exactly (31, 31). -/
theorem csl_c8_degenerate (at2 : ℚ → ℚ → ℚ) (CN : QPoint → QPoint → QPoint)
    (LOL : QPoint → QPoint → QPoint → ℚ)
    (packer : List (ℤ × ℤ) → ℚ → List (ℤ × ℤ)) (hull : List QPoint)
    (hsize : hull.length ≤ 1) :
    (boxStage at2 CN LOL (cslMk packer).m_border hull).width = 1
    ∧ (boxStage at2 CN LOL (cslMk packer).m_border hull).height = 1
    ∧ (boxStage at2 CN LOL (cslMk packer).m_border hull).normal = ⟨1, 1⟩
    ∧ (boxStage at2 CN LOL (cslMk packer).m_border hull).box = (31, 31) := by
  simp only [boxStage, cslMk, if_pos hsize]
  norm_num [normalizeOrientation, icast]

/-- Witness for C8: a single-point hull yields the (31, 31) box under the
default border. -/
theorem csl_c8_witness :
    ([(⟨5, 7⟩ : QPoint)].length ≤ 1)
    ∧ (boxStage atan2q chNormal chLeftOf (cslMk packZero).m_border [⟨5, 7⟩]).box = (31, 31) :=
  ⟨by norm_num,
   (csl_c8_degenerate atan2q chNormal chLeftOf packZero [⟨5, 7⟩] (by norm_num)).2.2.2⟩

/-! ### Lower bounds on the packed boxes (C10) -/

lemma caliperCandidate_clamped (CN : QPoint → QPoint → QPoint)
    (LOL : QPoint → QPoint → QPoint → ℚ) (hull : List QPoint) (pIter pSucc : QPoint) :
    1 ≤ (caliperCandidate CN LOL hull pIter pSucc).height
    ∧ 1 ≤ (caliperCandidate CN LOL hull pIter pSucc).width :=
  ⟨le_max_right _ 1, le_max_right _ 1⟩

lemma candidatesOf_clamped (CN : QPoint → QPoint → QPoint)
    (LOL : QPoint → QPoint → QPoint → ℚ) (hull : List QPoint) :
    ∀ c ∈ candidatesOf CN LOL hull, 1 ≤ c.height ∧ 1 ≤ c.width := by
  intro c hc
  rcases List.mem_map.mp hc with ⟨pr, _, rfl⟩
  exact caliperCandidate_clamped CN LOL hull pr.1 pr.2

lemma accept_fold_clamped (l : List Calipers) (b : Calipers)
    (hl : ∀ c ∈ l, 1 ≤ c.height ∧ 1 ≤ c.width)
    (hb : 1 ≤ b.height ∧ 1 ≤ b.width) :
    1 ≤ (l.foldl acceptStep b).height ∧ 1 ≤ (l.foldl acceptStep b).width := by
  induction l generalizing b with
  | nil => exact hb
  | cons c t ih =>
      simp only [List.foldl_cons]
      refine ih _ (fun d hd => hl d (List.mem_cons_of_mem _ hd)) ?_
      unfold acceptStep
      by_cases hc : c.area ≤ b.area
      · rw [if_pos hc]; exact hl c (List.mem_cons_self _ _)
      · rw [if_neg hc]; exact hb

lemma accept_fold_or (l : List Calipers) (b : Calipers)
    (hl : ∀ c ∈ l, 1 ≤ c.height ∧ 1 ≤ c.width) :
    l.foldl acceptStep b = b
    ∨ (1 ≤ (l.foldl acceptStep b).height ∧ 1 ≤ (l.foldl acceptStep b).width) := by
  induction l generalizing b with
  | nil => exact Or.inl rfl
  | cons c t ih =>
      simp only [List.foldl_cons]
      rcases ih (acceptStep b c) (fun d hd => hl d (List.mem_cons_of_mem _ hd)) with h | h
      · rw [h]
        unfold acceptStep
        by_cases hc : c.area ≤ b.area
        · rw [if_pos hc]
          exact Or.inr (hl c (List.mem_cons_self _ _))
        · rw [if_neg hc]
          exact Or.inl rfl
      · exact Or.inr h

lemma accept_fold_hit (l : List Calipers)
    (hl : ∀ c ∈ l, 1 ≤ c.height ∧ 1 ≤ c.width)
    (hit : ∃ c ∈ l, c.area ≤ dblMax) :
    1 ≤ (l.foldl acceptStep caliperInit).height
    ∧ 1 ≤ (l.foldl acceptStep caliperInit).width := by
  obtain ⟨c, hc, hca⟩ := hit
  obtain ⟨s, t, rfl⟩ := List.append_of_mem hc
  have hls : ∀ d ∈ s, 1 ≤ d.height ∧ 1 ≤ d.width := by
    intro d hd
    exact hl d (List.mem_append.mpr (Or.inl hd))
  have hlt : ∀ d ∈ t, 1 ≤ d.height ∧ 1 ≤ d.width := by
    intro d hd
    exact hl d (List.mem_append.mpr (Or.inr (List.mem_cons_of_mem _ hd)))
  have hcc : 1 ≤ c.height ∧ 1 ≤ c.width :=
    hl c (List.mem_append.mpr (Or.inr (List.mem_cons_self _ _)))
  rw [List.foldl_append]
  simp only [List.foldl_cons]
  have hstep : 1 ≤ (acceptStep (s.foldl acceptStep caliperInit) c).height
      ∧ 1 ≤ (acceptStep (s.foldl acceptStep caliperInit) c).width := by
    rcases accept_fold_or s caliperInit hls with h | h
    · rw [h, acceptStep_eq_of_le (by exact hca)]
      exact hcc
    · by_cases hc2 : c.area ≤ (s.foldl acceptStep caliperInit).area
      · rw [acceptStep_eq_of_le hc2]; exact hcc
      · rw [acceptStep_eq_of_not_le hc2]; exact h
  exact accept_fold_clamped t _ hlt hstep

/-- C10 amended: every per-edge candidate of the calipers search has both
dimensions clamped to at least 1, and provided the hull is degenerate (≤ 1
point) or at least one candidate's clamped area does not exceed the DBL_MAX
sentinel that initializes best_area, both dimensions of the box handed to the
packer are at least 1 + border. -/
theorem csl_c10_boxmin (at2 : ℚ → ℚ → ℚ) (CN : QPoint → QPoint → QPoint)
    (LOL : QPoint → QPoint → QPoint → ℚ) (border : ℤ) (hull : List QPoint)
    (hcond : hull.length ≤ 1 ∨ ∃ c ∈ candidatesOf CN LOL hull, c.area ≤ dblMax) :
    (∀ c ∈ candidatesOf CN LOL hull, 1 ≤ c.height ∧ 1 ≤ c.width)
    ∧ 1 + border ≤ (boxStage at2 CN LOL border hull).box.1
    ∧ 1 + border ≤ (boxStage at2 CN LOL border hull).box.2 := by
  refine ⟨candidatesOf_clamped CN LOL hull, ?_⟩
  have hwh : (1 ≤ (if hull.length ≤ 1 then 1 else (caliperSearch CN LOL hull).width))
      ∧ (1 ≤ (if hull.length ≤ 1 then 1 else (caliperSearch CN LOL hull).height)) := by
    by_cases hdeg : hull.length ≤ 1
    · rw [if_pos hdeg, if_pos hdeg]
      exact ⟨le_refl 1, le_refl 1⟩
    · rw [if_neg hdeg, if_neg hdeg]
      rcases hcond with h | h
      · exact absurd h hdeg
      · have := accept_fold_hit (candidatesOf CN LOL hull)
          (candidatesOf_clamped CN LOL hull) h
        exact ⟨this.2, this.1⟩
  have hbox : ∀ angle w h : ℚ, 1 ≤ w → 1 ≤ h →
      1 + border ≤ icast (normalizeOrientation angle w h).2.1 + border
      ∧ 1 + border ≤ icast (normalizeOrientation angle w h).2.2 + border := by
    intro angle w h hw hh
    unfold normalizeOrientation
    by_cases hlt : w < h
    · rw [if_pos hlt]
      exact ⟨add_le_add_right (icast_one_le hh) border,
        add_le_add_right (icast_one_le hw) border⟩
    · rw [if_neg hlt]
      exact ⟨add_le_add_right (icast_one_le hw) border,
        add_le_add_right (icast_one_le hh) border⟩
  simp only [boxStage]
  exact hbox _ _ _ hwh.1 hwh.2

/-- Witness for C10 (amended) at a degenerate hull with the default border:
both box dimensions are at least 31. -/
theorem csl_c10_witness :
    (([(⟨2, 3⟩ : QPoint)].length ≤ 1
        ∨ ∃ c ∈ candidatesOf chNormal chLeftOf [(⟨2, 3⟩ : QPoint)], c.area ≤ dblMax))
    ∧ 1 + 30 ≤ (boxStage atan2q chNormal chLeftOf 30 [⟨2, 3⟩]).box.1
    ∧ 1 + 30 ≤ (boxStage atan2q chNormal chLeftOf 30 [⟨2, 3⟩]).box.2 :=
  ⟨Or.inl (by norm_num),
   (csl_c10_boxmin atan2q chNormal chLeftOf 30 [⟨2, 3⟩] (Or.inl (by norm_num))).2.1,
   (csl_c10_boxmin atan2q chNormal chLeftOf 30 [⟨2, 3⟩] (Or.inl (by norm_num))).2.2⟩

/-- A counterclockwise square hull of side 2^600 — astronomical but
double-representable extent in both dimensions. -/
def bigHull : List QPoint :=
  [⟨0, 0⟩, ⟨2 ^ 600, 0⟩, ⟨2 ^ 600, 2 ^ 600⟩, ⟨0, 2 ^ 600⟩]

/-- C10 counterexample: on the square hull of side 2^600 (representable in
double precision) every hull edge has unit normal, perpendicular height
2^600 and projected width 2^600, so every candidate's clamped area is
2^1200, exceeding the DBL_MAX sentinel that initializes best_area; no
candidate is ever accepted, the zero-initialized best dimensions survive the
search, and with the default border 30 the box handed to the packer is
(30, 30) — below the claimed (31, 31). -/
theorem csl_c10_counterexample :
    bigHull.length = 4
    ∧ (boxStage atan2q chNormal chLeftOf 30 bigHull).box = (30, 30)
    ∧ ¬ (1 + 30 ≤ (boxStage atan2q chNormal chLeftOf 30 bigHull).box.1) := by
  have hpairs : hullEdgePairs bigHull
      = [(⟨0, 0⟩, ⟨2 ^ 600, 0⟩), (⟨2 ^ 600, 0⟩, ⟨2 ^ 600, 2 ^ 600⟩),
         (⟨2 ^ 600, 2 ^ 600⟩, ⟨0, 2 ^ 600⟩), (⟨0, 2 ^ 600⟩, ⟨0, 0⟩)] := by
    norm_num [hullEdgePairs, bigHull, List.rotate]
  have hc1 : caliperCandidate chNormal chLeftOf bigHull ⟨0, 0⟩ ⟨2 ^ 600, 0⟩
      = ⟨2 ^ 600, 2 ^ 600, 2 ^ 1200, ⟨0, 1⟩⟩ := by
    norm_num [caliperCandidate, chNormal, edgeLen, chLeftOf, bigHull, max_def]
  have hc2 : caliperCandidate chNormal chLeftOf bigHull ⟨2 ^ 600, 0⟩ ⟨2 ^ 600, 2 ^ 600⟩
      = ⟨2 ^ 600, 2 ^ 600, 2 ^ 1200, ⟨-1, 0⟩⟩ := by
    norm_num [caliperCandidate, chNormal, edgeLen, chLeftOf, bigHull, max_def]
  have hc3 : caliperCandidate chNormal chLeftOf bigHull ⟨2 ^ 600, 2 ^ 600⟩ ⟨0, 2 ^ 600⟩
      = ⟨2 ^ 600, 2 ^ 600, 2 ^ 1200, ⟨0, -1⟩⟩ := by
    norm_num [caliperCandidate, chNormal, edgeLen, chLeftOf, bigHull, max_def]
  have hc4 : caliperCandidate chNormal chLeftOf bigHull ⟨0, 2 ^ 600⟩ ⟨0, 0⟩
      = ⟨2 ^ 600, 2 ^ 600, 2 ^ 1200, ⟨1, 0⟩⟩ := by
    norm_num [caliperCandidate, chNormal, edgeLen, chLeftOf, bigHull, max_def]
  have hcands : candidatesOf chNormal chLeftOf bigHull
      = [⟨2 ^ 600, 2 ^ 600, 2 ^ 1200, ⟨0, 1⟩⟩,
         ⟨2 ^ 600, 2 ^ 600, 2 ^ 1200, ⟨-1, 0⟩⟩,
         ⟨2 ^ 600, 2 ^ 600, 2 ^ 1200, ⟨0, -1⟩⟩,
         ⟨2 ^ 600, 2 ^ 600, 2 ^ 1200, ⟨1, 0⟩⟩] := by
    rw [candidatesOf, hpairs]
    simp only [List.map_cons, List.map_nil]
    rw [hc1, hc2, hc3, hc4]
  have hrej : ¬ ((2 : ℚ) ^ 1200 ≤ dblMax) := by
    norm_num [dblMax]
  have hstep : ∀ n : QPoint,
      acceptStep caliperInit ⟨2 ^ 600, 2 ^ 600, 2 ^ 1200, n⟩ = caliperInit :=
    fun n => acceptStep_eq_of_not_le (by exact hrej)
  have hsearch : caliperSearch chNormal chLeftOf bigHull = caliperInit := by
    rw [caliperSearch, hcands]
    simp only [List.foldl_cons, List.foldl_nil]
    rw [hstep ⟨0, 1⟩, hstep ⟨-1, 0⟩, hstep ⟨0, -1⟩, hstep ⟨1, 0⟩]
  have hlen : ¬ (bigHull.length ≤ 1) := by norm_num [bigHull]
  have hbox : (boxStage atan2q chNormal chLeftOf 30 bigHull).box = (30, 30) := by
    simp only [boxStage, hsearch, if_neg hlen]
    norm_num [caliperInit, normalizeOrientation, icast]
  exact ⟨by norm_num [bigHull], hbox, by rw [hbox]; norm_num⟩

/-! ### Centroid and centering (C7) -/

/-- The collected point set of a component (lines 199-222): the node
positions followed by every edge's bend points, in iteration order. -/
def collectPoints (nodes : List QPoint) (bends : List (List QPoint)) : List QPoint :=
  nodes ++ bends.flatten

/-- The centroid divisor of the source (lines 223-224): the number of nodes
plus the total number of bend points. -/
def centroidCount (nodes : List QPoint) (bends : List (List QPoint)) : ℕ :=
  nodes.length + (bends.map List.length).sum

/-- The centroid as accumulated by the source (lines 203-224): the sums of
the node positions and bend points divided by the centroid divisor. -/
def avgPoint (nodes : List QPoint) (bends : List (List QPoint)) : QPoint :=
  ⟨((collectPoints nodes bends).map QPoint.x).sum / centroidCount nodes bends,
   ((collectPoints nodes bends).map QPoint.y).sum / centroidCount nodes bends⟩

/-- Subtract a fixed point from every point of a list (lines 227-248). -/
def centerPoints (c : QPoint) (pts : List QPoint) : List QPoint :=
  pts.map (fun p => ⟨p.x - c.x, p.y - c.y⟩)

lemma sum_map_sub (pts : List QPoint) (f : QPoint → ℚ) (c : ℚ) :
    (pts.map (fun p => f p - c)).sum = (pts.map f).sum - pts.length * c := by
  induction pts with
  | nil => simp
  | cons p t ih =>
      simp only [List.map_cons, List.sum_cons, List.length_cons, ih]
      push_cast
      ring

/-- C7: the centroid divisor equals the number of collected points (nodes and
bends weighted equally, so the centroid is the arithmetic mean); after the
subtraction the collected point set sums to zero in both coordinates, hence
has arithmetic mean (0,0); and centering the node positions and the per-edge
bend points separately agrees with centering the local point-set copy, so all
subsequent geometry is centroid-relative. -/
theorem csl_c7_centroid (nodes : List QPoint) (bends : List (List QPoint))
    (hne : nodes ≠ []) :
    (centroidCount nodes bends = (collectPoints nodes bends).length)
    ∧ ((centerPoints (avgPoint nodes bends) (collectPoints nodes bends)).map QPoint.x).sum = 0
    ∧ ((centerPoints (avgPoint nodes bends) (collectPoints nodes bends)).map QPoint.y).sum = 0
    ∧ centerPoints (avgPoint nodes bends) (collectPoints nodes bends)
        = collectPoints (centerPoints (avgPoint nodes bends) nodes)
            (bends.map (fun bl => centerPoints (avgPoint nodes bends) bl)) := by
  have hcount : centroidCount nodes bends = (collectPoints nodes bends).length := by
    simp [centroidCount, collectPoints, List.length_flatten]
  have hn : ((centroidCount nodes bends : ℚ)) ≠ 0 := by
    have h1 : 0 < nodes.length := List.length_pos.mpr hne
    have h2 : 0 < centroidCount nodes bends := by
      unfold centroidCount
      omega
    exact_mod_cast Nat.pos_iff_ne_zero.mp h2
  refine ⟨hcount, ?_, ?_, ?_⟩
  · rw [centerPoints, List.map_map]
    have : ((fun p : QPoint => p.x) ∘ fun p : QPoint =>
        (⟨p.x - (avgPoint nodes bends).x, p.y - (avgPoint nodes bends).y⟩ : QPoint))
        = fun p : QPoint => p.x - (avgPoint nodes bends).x := rfl
    rw [this, sum_map_sub]
    show ((collectPoints nodes bends).map QPoint.x).sum
        - ((collectPoints nodes bends).length : ℚ)
          * (((collectPoints nodes bends).map QPoint.x).sum / (centroidCount nodes bends : ℚ))
        = 0
    rw [← hcount]
    field_simp
  · rw [centerPoints, List.map_map]
    have : ((fun p : QPoint => p.y) ∘ fun p : QPoint =>
        (⟨p.x - (avgPoint nodes bends).x, p.y - (avgPoint nodes bends).y⟩ : QPoint))
        = fun p : QPoint => p.y - (avgPoint nodes bends).y := rfl
    rw [this, sum_map_sub]
    show ((collectPoints nodes bends).map QPoint.y).sum
        - ((collectPoints nodes bends).length : ℚ)
          * (((collectPoints nodes bends).map QPoint.y).sum / (centroidCount nodes bends : ℚ))
        = 0
    rw [← hcount]
    field_simp
  · simp [centerPoints, collectPoints, List.map_flatten]

/-- Witness for C7 on two nodes and one bend: the centroid is (3,4) and the
centered x-coordinates sum to zero. -/
theorem csl_c7_witness :
    (([(⟨1, 2⟩ : QPoint), ⟨3, 4⟩] : List QPoint) ≠ [])
    ∧ avgPoint [⟨1, 2⟩, ⟨3, 4⟩] [[⟨5, 6⟩]] = ⟨3, 4⟩
    ∧ ((centerPoints (avgPoint [⟨1, 2⟩, ⟨3, 4⟩] [[⟨5, 6⟩]])
          (collectPoints [⟨1, 2⟩, ⟨3, 4⟩] [[⟨5, 6⟩]])).map QPoint.x).sum = 0 :=
  ⟨List.cons_ne_nil _ _,
   by norm_num [avgPoint, collectPoints, centroidCount],
   (csl_c7_centroid [⟨1, 2⟩, ⟨3, 4⟩] [[⟨5, 6⟩]] (List.cons_ne_nil _ _)).2.1⟩

/-! ### Write-back of the final transform (C6) -/

/-- The node write-back loop (lines 368-372): every node position is
replaced by rotatePoint applied to it. -/
def writeBackNodes (tm : TrigModel) (rot : ℚ) (off : ℤ × ℤ) (oldOff : QPoint)
    (nodes : List QPoint) : List QPoint :=
  nodes.map (fun p => rotatePoint tm rot off oldOff p)

/-- The bend write-back loop (lines 374-380): every bend point of every edge
is replaced by rotatePoint applied to it. -/
def writeBackBends (tm : TrigModel) (rot : ℚ) (off : ℤ × ℤ) (oldOff : QPoint)
    (bends : List (List QPoint)) : List (List QPoint) :=
  bends.map (fun bl => bl.map (fun p => rotatePoint tm rot off oldOff p))

/-- C6: nodes and bend points are written back through one and the same point
transform — both write-back loops are the map of the single rotatePoint
function, with no per-kind special-casing, and that function is exactly the
polar rotation by the component's rotation angle followed by adding the
packer's placement offset and subtracting the component's pre-rotation
offset. -/
theorem csl_c6_uniform (tm : TrigModel) (rot : ℚ) (off : ℤ × ℤ) (oldOff : QPoint)
    (nodes : List QPoint) (bends : List (List QPoint)) :
    writeBackNodes tm rot off oldOff nodes = nodes.map (rotatePoint tm rot off oldOff)
    ∧ writeBackBends tm rot off oldOff bends
        = bends.map (List.map (rotatePoint tm rot off oldOff))
    ∧ ∀ p : QPoint, rotatePoint tm rot off oldOff p
        = ⟨(rotateByAngle tm rot p).x + off.1 - oldOff.x,
           (rotateByAngle tm rot p).y + off.2 - oldOff.y⟩ :=
  ⟨rfl, rfl, fun _ => rfl⟩

/-! ### The call pipeline and its no-op guard (C9) -/

/-- Invocation counters: secondary layout runs, packer runs, and
reassembleDrawings runs. -/
structure CallCounts where
  secondaryRuns : ℕ
  packerRuns : ℕ
  reassembleRuns : ℕ
deriving DecidableEq, Repr

/-- The pre-rotation offset of a component (lines 311-334): minima and maxima
over the rotated hull, seeded with the unrotated first hull point, then
(left + border/2, −height + bottom + 0·top + border/2), transcribing the
source's coefficients literally. -/
def oldOffsetOf (tm : TrigModel) (angle height : ℚ) (border : ℤ)
    (hull : List QPoint) : QPoint :=
  let h0 := (hull.head?).getD ⟨0, 0⟩
  let ltb := hull.foldl
    (fun acc p =>
      let rp := rotateByAngle tm angle p
      (if rp.x < acc.1 then rp.x else acc.1,
       if rp.y < acc.2.1 then rp.y else acc.2.1,
       if acc.2.2 < rp.y then rp.y else acc.2.2))
    (h0.x, h0.y, h0.y)
  ⟨ltb.1 + (border : ℚ) / 2,
   -1 * height + 1 * ltb.2.2 + 0 * ltb.2.1 + (border : ℚ) / 2⟩

/-- Per-component preparation of reassembleDrawings (lines 196-340): center
the component at its centroid, take the convex hull of the centered point
set, run the box stage, and record the centered geometry, rotation angle,
pre-rotation offset and box. -/
def componentPrep (tm : TrigModel) (CN : QPoint → QPoint → QPoint)
    (LOL : QPoint → QPoint → QPoint → ℚ) (hullF : List QPoint → List QPoint)
    (border : ℤ) (comp : CompGeom) : CompGeom × ℚ × QPoint × (ℤ × ℤ) :=
  let c := avgPoint comp.nodes comp.bends
  let centered : CompGeom := ⟨centerPoints c comp.nodes, comp.bends.map (centerPoints c)⟩
  let hull := hullF (centerPoints c (collectPoints comp.nodes comp.bends))
  let st := boxStage tm.at2 CN LOL border hull
  (centered, st.angle, oldOffsetOf tm st.angle st.height border hull, st.box)

/-- reassembleDrawings (lines 184-392): prepare every component, call the
packer once on the list of boxes with the target ratio, then write every
component's nodes and bends back through rotatePoint with its rotation
angle, packer offset and pre-rotation offset. -/
def reassembleDrawings (tm : TrigModel) (CN : QPoint → QPoint → QPoint)
    (LOL : QPoint → QPoint → QPoint → ℚ) (hullF : List QPoint → List QPoint)
    (packer : List (ℤ × ℤ) → ℚ → List (ℤ × ℤ)) (ratio : ℚ) (border : ℤ)
    (ga : List CompGeom) : List CompGeom :=
  let preps := ga.map (componentPrep tm CN LOL hullF border)
  let offs := packer (preps.map (fun pr => pr.2.2.2)) ratio
  List.zipWith
    (fun pr off =>
      (⟨writeBackNodes tm pr.2.1 off pr.2.2.1 pr.1.nodes,
        writeBackBends tm pr.2.1 off pr.2.2.1 pr.1.bends⟩ : CompGeom))
    preps offs

/-- ComponentSplitterLayout::call (lines 63-136): nothing happens without a
secondary layout; with one, a zero-component graph returns unchanged;
otherwise every component is laid out by the secondary layout on its own
copy and the whole drawing is reassembled.  The second result counts the
invocations of the secondary layout, the packer and reassembleDrawings. -/
def ComponentSplitterLayout.call (csl : ComponentSplitterLayout) (tm : TrigModel)
    (CN : QPoint → QPoint → QPoint) (LOL : QPoint → QPoint → QPoint → ℚ)
    (hullF : List QPoint → List QPoint) (ga : List CompGeom) :
    List CompGeom × CallCounts :=
  match csl.m_secondaryLayout with
  | none => (ga, ⟨0, 0, 0⟩)
  | some L =>
      if ga.length = 0 then (ga, ⟨0, 0, 0⟩)
      else
        (reassembleDrawings tm CN LOL hullF csl.m_packer csl.m_targetRatio csl.m_border
            (ga.map L),
         ⟨ga.length, 1, 1⟩)

/-- C9: with no secondary layout configured, or with a graph of zero
connected components, call returns the attributed graph unchanged and
invokes neither the secondary layout nor the packer nor reassembleDrawings. -/
theorem csl_c9_noop (csl : ComponentSplitterLayout) (tm : TrigModel)
    (CN : QPoint → QPoint → QPoint) (LOL : QPoint → QPoint → QPoint → ℚ)
    (hullF : List QPoint → List QPoint) (ga : List CompGeom)
    (h : csl.m_secondaryLayout = none ∨ ga.length = 0) :
    csl.call tm CN LOL hullF ga = (ga, ⟨0, 0, 0⟩) := by
  rcases h with h | h
  · simp [ComponentSplitterLayout.call, h]
  · cases hs : csl.m_secondaryLayout with
    | none => simp [ComponentSplitterLayout.call, hs]
    | some L => simp [ComponentSplitterLayout.call, hs, h]

/-- A trivial trig model used only to instantiate witnesses. -/
def qTrigW : TrigModel := ⟨atan2q, fun _ => 1, fun _ => 0, fun _ => 0⟩

/-- A one-node component used to instantiate witnesses. -/
def compW : CompGeom := ⟨[⟨0, 0⟩], []⟩

/-- Witness for C9: the freshly constructed layout has no secondary layout,
and its call on a one-component graph returns the graph unchanged with all
invocation counts zero. -/
theorem csl_c9_witness :
    ((cslMk packZero).m_secondaryLayout = none ∨ ([compW] : List CompGeom).length = 0)
    ∧ (cslMk packZero).call qTrigW chNormal chLeftOf id [compW] = ([compW], ⟨0, 0, 0⟩) :=
  ⟨Or.inl rfl,
   csl_c9_noop (cslMk packZero) qTrigW chNormal chLeftOf id [compW] (Or.inl rfl)⟩
